import Mathlib

/-!
Verification of the `BufMut` write-cursor abstraction (`src/buf/buf_mut.rs`).

Modelling conventions:
* Machine bytes are `Nat` values (every byte produced by the code is `< 256`);
  `usize` is a `Nat` with `USIZE_MAX = 2 ^ 64 - 1` (64-bit target).
* A fallible operation returns `Except σ σ`: `.ok s` is normal return with the
  buffer in state `s`, `.error s` is a panic with the buffer left in state `s`
  at the moment the panic fires (panics unwind without further mutation).
* The trait's primitive operations are collected in a record `BufMutOps σ`.
  `bytes_mut` returns the writable region together with the (possibly updated)
  state, because `<Vec<u8>>::bytes_mut` reserves capacity as a side effect.
  `write` is not a trait method: it models the caller of `bytes_mut` storing
  bytes through the returned `&mut [u8]`, i.e. the `ptr::copy_nonoverlapping`
  calls in `put` / `put_slice` writing into the front of the region.
* The `while` loops of `put` / `put_slice` are translated with explicit fuel;
  the fuel-exhausted case (which the Rust loop would reach only by diverging)
  is rendered as `.error`.  The theorems show the loops finish within the
  chosen fuel, so that branch is never taken.
-/

/-- `usize::MAX` on the 64-bit target. -/
def USIZE_MAX : Nat := 2 ^ 64 - 1

/-- `isize::MAX` on the 64-bit target: the largest capacity a `Vec<u8>` can
have, and the bound past which `Vec::reserve` panics with a capacity
overflow. -/
def ISIZE_MAX : Nat := 2 ^ 63 - 1

/-- The primitive operations of the `BufMut` trait (`trait BufMut`, lines
25-158 of `buf_mut.rs`), over an abstract buffer state `σ`, plus the `write`
operation modelling the caller mutating the region returned by `bytes_mut`. -/
structure BufMutOps (σ : Type) where
  remaining_mut : σ → Nat
  bytes_mut : σ → List Nat × σ
  write : σ → List Nat → σ
  advance_mut : σ → Nat → Except σ σ

/-- The `while off < src.len()` loop of `BufMut::put_slice` (lines 271-288):
each round obtains the writable region, copies
`cnt = min(dst.len(), src.len() - off)` source bytes starting at `off` into
its front, and advances the cursor by `cnt`. -/
def put_slice_loop {σ : Type} (ops : BufMutOps σ) (src : List Nat) :
    Nat → σ → Nat → Except σ σ
  | 0, s, off => if off < src.length then Except.error s else Except.ok s
  | fuel + 1, s, off =>
    if off < src.length then
      let p := ops.bytes_mut s
      let cnt := min p.1.length (src.length - off)
      match ops.advance_mut (ops.write p.2 ((src.drop off).take cnt)) cnt with
      | Except.ok s3 => put_slice_loop ops src fuel s3 (off + cnt)
      | Except.error e => Except.error e
    else Except.ok s

/-- `BufMut::put_slice` (lines 266-289): `assert!(remaining_mut() >= src.len(),
"buffer overflow")` — a panic with the buffer untouched — then the copy loop. -/
def put_slice {σ : Type} (ops : BufMutOps σ) (s : σ) (src : List Nat) : Except σ σ :=
  if src.length ≤ ops.remaining_mut s then put_slice_loop ops src src.length s 0
  else Except.error s

/-- Modelled from the spec: the consumed read-cursor capability (the `Buf`
trait together with the `IntoBuf` conversion, which live outside the provided
source).  Per §6 of the spec it exposes `remaining()`, a readable contiguous
region, and `advance(cnt)`. -/
structure ReadBufOps (τ : Type) where
  remaining : τ → Nat
  bytes : τ → List Nat
  advance : τ → Nat → τ

/-- The `while src.has_remaining()` loop of `BufMut::put` (lines 228-244):
each round copies `l = min(s.len(), d.len())` bytes from the source region to
the destination region and advances both cursors by `l` (the source first,
as in the Rust code). -/
def put_loop {σ τ : Type} (wops : BufMutOps σ) (rops : ReadBufOps τ) :
    Nat → σ → τ → Except (σ × τ) (σ × τ)
  | 0, s, t => if 0 < rops.remaining t then Except.error (s, t) else Except.ok (s, t)
  | fuel + 1, s, t =>
    if 0 < rops.remaining t then
      let sb := rops.bytes t
      let p := wops.bytes_mut s
      let l := min sb.length p.1.length
      let t2 := rops.advance t l
      match wops.advance_mut (wops.write p.2 (sb.take l)) l with
      | Except.ok s3 => put_loop wops rops fuel s3 t2
      | Except.error e => Except.error (e, t2)
    else Except.ok (s, t)

/-- `BufMut::put` (lines 221-245): `assert!(self.remaining_mut() >=
src.remaining())` — a panic with both cursors untouched — then the copy loop. -/
def put {σ τ : Type} (wops : BufMutOps σ) (rops : ReadBufOps τ) (s : σ) (t : τ) :
    Except (σ × τ) (σ × τ) :=
  if rops.remaining t ≤ wops.remaining_mut s then
    put_loop wops rops (rops.remaining t) s t
  else Except.error (s, t)

/-- Rust `uN::to_be_bytes` for a `w`-byte integer: most significant byte
first, byte `i` (from the front) is `n / 256 ^ (w - 1 - i) % 256`. -/
def to_be_bytes : Nat → Nat → List Nat
  | 0, _ => []
  | w + 1, n => n / 256 ^ w % 256 :: to_be_bytes w n

/-- Rust `uN::to_le_bytes` for a `w`-byte integer: least significant byte
first. -/
def to_le_bytes : Nat → Nat → List Nat
  | 0, _ => []
  | w + 1, n => n % 256 :: to_le_bytes w (n / 256)

/-- The numeric value of a big-endian byte string (used to characterise what
"big-endian representation" means). -/
def beVal (l : List Nat) : Nat := l.foldl (fun a b => a * 256 + b) 0

/-- `BufMut::put_u8` (lines 309-312): `put_slice(&[n])`. -/
def put_u8 {σ : Type} (ops : BufMutOps σ) (s : σ) (n : Nat) : Except σ σ :=
  put_slice ops s [n]

/-- `BufMut::put_u32` (lines 443-445): `put_slice(&n.to_be_bytes())`. -/
def put_u32 {σ : Type} (ops : BufMutOps σ) (s : σ) (n : Nat) : Except σ σ :=
  put_slice ops s (to_be_bytes 4 n)

/-- `BufMut::put_u32_le` (lines 465-467): `put_slice(&n.to_le_bytes())`. -/
def put_u32_le {σ : Type} (ops : BufMutOps σ) (s : σ) (n : Nat) : Except σ σ :=
  put_slice ops s (to_le_bytes 4 n)

/-- `BufMut::put_uint` (lines 707-709):
`put_slice(&n.to_be_bytes()[size_of::<u64>() - nbytes..])`.  When
`nbytes > 8` the index computation `8 - nbytes` underflows and panics before
`put_slice` is entered, leaving the buffer untouched; this is the guard. -/
def put_uint {σ : Type} (ops : BufMutOps σ) (s : σ) (n nbytes : Nat) : Except σ σ :=
  if nbytes ≤ 8 then put_slice ops s ((to_be_bytes 8 n).drop (8 - nbytes))
  else Except.error s

/-- `BufMut::put_uint_le` (lines 729-731): `put_slice(&n.to_le_bytes()[0..nbytes])`.
When `nbytes > 8` the slice bound check `nbytes <= 8` fails and panics before
`put_slice` is entered, leaving the buffer untouched; this is the guard. -/
def put_uint_le {σ : Type} (ops : BufMutOps σ) (s : σ) (n nbytes : Nat) : Except σ σ :=
  if nbytes ≤ 8 then put_slice ops s ((to_le_bytes 8 n).take nbytes)
  else Except.error s

/-- Two's-complement reading of an `i64` as a `u64` bit pattern. -/
def i64_to_u64 (n : Int) : Nat := (n % (2 ^ 64 : Int)).toNat

/-- `BufMut::put_int` (lines 751-753): same shape as `put_uint` on the two's
complement bit pattern. -/
def put_int {σ : Type} (ops : BufMutOps σ) (s : σ) (n : Int) (nbytes : Nat) :
    Except σ σ :=
  if nbytes ≤ 8 then
    put_slice ops s ((to_be_bytes 8 (i64_to_u64 n)).drop (8 - nbytes))
  else Except.error s

/-- `BufMut::put_int_le` (lines 773-775): same shape as `put_uint_le` on the
two's complement bit pattern. -/
def put_int_le {σ : Type} (ops : BufMutOps σ) (s : σ) (n : Int) (nbytes : Nat) :
    Except σ σ :=
  if nbytes ≤ 8 then
    put_slice ops s ((to_le_bytes 8 (i64_to_u64 n)).take nbytes)
  else Except.error s

/-- Writing a list of bytes one `put_u8` at a time (stopping at the first
panic). -/
def put_u8_all {σ : Type} (ops : BufMutOps σ) : σ → List Nat → Except σ σ
  | s, [] => Except.ok s
  | s, b :: bs =>
    match put_u8 ops s b with
    | Except.ok s2 => put_u8_all ops s2 bs
    | Except.error e => Except.error e

/-- `impl BufMut for &mut [u8]` (lines 961-978), seen through the region the
borrow was created from: `data` is the underlying byte region, `pos` the
cursor, and the live slice held by the implementation is `data.drop pos`. -/
structure FixedView where
  data : List Nat
  pos : Nat
deriving DecidableEq

/-- The `&mut [u8]` slice currently held by a `FixedView`. -/
def FixedView.view (v : FixedView) : List Nat := v.data.drop v.pos

/-- The operations of `impl BufMut for &mut [u8]`:
`remaining_mut` is `self.len()`; `bytes_mut` is `self` (no side effect);
`write` stores bytes through the front of the slice; `advance_mut` is
`let (_, b) = mem::replace(self, &mut []).split_at_mut(cnt); *self = b;` —
it panics (slice-bounds violation in `split_at_mut`) iff `cnt > self.len()`,
and at that point `mem::replace` has already left the empty slice behind. -/
def fixedOps : BufMutOps FixedView where
  remaining_mut v := v.view.length
  bytes_mut v := (v.view, v)
  write v src := ⟨v.data.take v.pos ++ src ++ v.data.drop (v.pos + src.length), v.pos⟩
  advance_mut v cnt :=
    if cnt ≤ v.view.length then Except.ok ⟨v.data, v.pos + cnt⟩
    else Except.error ⟨v.data, v.data.length⟩

/-- Well-formedness of a `FixedView`: the cursor lies inside the region. -/
abbrev fixedInv (v : FixedView) : Prop := v.pos ≤ v.data.length

/-- The bytes written so far through a `FixedView` (the initialized prefix of
the underlying region, as observed after the borrow ends). -/
def fixedContents (v : FixedView) : List Nat := v.data.take v.pos

/-- `impl BufMut for Vec<u8>` (lines 980-1013): `store` is the whole
allocation (`store.length` is the capacity, with uninitialized bytes modelled
as `0`), `len` is the vector's length. -/
structure VecBuf where
  store : List Nat
  len : Nat
deriving DecidableEq

/-- The operations of `impl BufMut for Vec<u8>`:
`remaining_mut` is `usize::MAX - self.len()`; `bytes_mut` reserves 64 more
bytes when `capacity == len` and returns the uninitialized tail
`[len, capacity)`; `advance_mut` calls `reserve(cnt)` when `cnt` exceeds the
allocated slack and then does `set_len(len + cnt)`.  On that reserve path,
`Vec::reserve(cnt)` panics with a capacity overflow when the required
capacity `len + cnt` exceeds `isize::MAX`, before mutating the vector (the
source comment: reserve must "ensure that the total length will not overflow
usize").  `reserve(n)` is otherwise modelled as growing the allocation to
exactly `len + n` (Rust guarantees at least that much). -/
def vecOps : BufMutOps VecBuf where
  remaining_mut v := USIZE_MAX - v.len
  bytes_mut v :=
    let w := if v.store.length = v.len then
        VecBuf.mk (v.store ++ List.replicate 64 0) v.len
      else v
    (w.store.drop w.len, w)
  write v src := ⟨v.store.take v.len ++ src ++ v.store.drop (v.len + src.length), v.len⟩
  advance_mut v cnt :=
    if v.store.length - v.len < cnt then
      if v.len + cnt ≤ ISIZE_MAX then
        Except.ok ⟨v.store ++ List.replicate (v.len + cnt - v.store.length) 0,
          v.len + cnt⟩
      else Except.error v
    else Except.ok ⟨v.store, v.len + cnt⟩

/-- Well-formedness of a `VecBuf`: `len ≤ capacity`. -/
abbrev vecInv (v : VecBuf) : Prop := v.len ≤ v.store.length

/-- The initialized contents of the vector. -/
def vecContents (v : VecBuf) : List Nat := v.store.take v.len

/-- Modelled from the spec: the canonical contiguous read cursor (what
`IntoBuf` produces from a byte slice): `remaining` is the length,
the readable region is the whole remainder, `advance` drops a prefix. -/
def listReadOps : ReadBufOps (List Nat) where
  remaining t := t.length
  bytes t := t
  advance t l := t.drop l

/-- The write-cursor contract from §3/§4.1 of the spec, as laws about a
`BufMutOps` instance.  `Inv` is the state well-formedness invariant and
`contents` the observation "bytes written so far":
`bytes_mut` changes no observable state and returns a nonempty region while
capacity remains; writing `src` into the front of the region and advancing by
`src.length` succeeds, appends `src` to the contents, and consumes exactly
`src.length` of the remaining capacity. -/
structure BufLaws {σ : Type} (ops : BufMutOps σ) (Inv : σ → Prop)
    (contents : σ → List Nat) : Prop where
  bytes_inv : ∀ s, Inv s → Inv (ops.bytes_mut s).2
  bytes_remaining : ∀ s, Inv s →
    ops.remaining_mut (ops.bytes_mut s).2 = ops.remaining_mut s
  bytes_contents : ∀ s, Inv s → contents (ops.bytes_mut s).2 = contents s
  bytes_ne : ∀ s, Inv s → 0 < ops.remaining_mut s → (ops.bytes_mut s).1 ≠ []
  write_advance_ok : ∀ s src, Inv s → src.length ≤ (ops.bytes_mut s).1.length →
    ∃ s3, ops.advance_mut (ops.write (ops.bytes_mut s).2 src) src.length
        = Except.ok s3 ∧
      Inv s3 ∧ contents s3 = contents s ++ src ∧
      ops.remaining_mut s3 = ops.remaining_mut s - src.length

/-- Modelled from the spec (§6): the read-cursor contract.  `toL` observes
the full remaining byte sequence: `remaining` is its length, the readable
region is a prefix of it (nonempty while bytes remain), and `advance l`
drops `l` bytes from it. -/
structure ReadLaws {τ : Type} (rops : ReadBufOps τ) (RInv : τ → Prop)
    (toL : τ → List Nat) : Prop where
  remaining_eq : ∀ t, RInv t → rops.remaining t = (toL t).length
  bytes_eq_take : ∀ t, RInv t → rops.bytes t = (toL t).take (rops.bytes t).length
  bytes_ne : ∀ t, RInv t → 0 < rops.remaining t → rops.bytes t ≠ []
  advance_inv : ∀ t l, RInv t → l ≤ (rops.bytes t).length → RInv (rops.advance t l)
  advance_toL : ∀ t l, RInv t → l ≤ (rops.bytes t).length →
    toL (rops.advance t l) = (toL t).drop l

/-- Taking the first `n + src.length` elements of `A ++ src ++ B` when
`A.length = n` yields `A ++ src`. -/
theorem take_mid (A src B : List Nat) (n : Nat) (h : A.length = n) :
    (A ++ src ++ B).take (n + src.length) = A ++ src :=
  List.take_left' (by simp [h])

/-- `fixedOps.advance_mut` in the in-bounds case. -/
theorem fixed_advance_eq (v : FixedView) (cnt : Nat) (h : cnt ≤ v.view.length) :
    fixedOps.advance_mut v cnt = Except.ok ⟨v.data, v.pos + cnt⟩ := by
  simp [fixedOps, h]

/-- `vecOps.advance_mut` when the allocated slack suffices (no reserve). -/
theorem vec_advance_eq (v : VecBuf) (cnt : Nat) (h : cnt ≤ v.store.length - v.len) :
    vecOps.advance_mut v cnt = Except.ok ⟨v.store, v.len + cnt⟩ := by
  have hc : ¬ (v.store.length - v.len < cnt) := by omega
  simp [vecOps, hc]

/-- `impl BufMut for &mut [u8]` satisfies the write-cursor contract. -/
theorem fixedLaws : BufLaws fixedOps fixedInv fixedContents := by
  constructor
  · exact fun s h => h
  · exact fun s _ => rfl
  · exact fun s _ => rfl
  · intro s _ h
    exact List.ne_nil_of_length_pos h
  · intro s src hInv hlen
    have hsrc : src.length ≤ s.data.length - s.pos := by
      simpa [fixedOps, FixedView.view] using hlen
    have hps : s.pos + src.length ≤ s.data.length := by omega
    have hA : (s.data.take s.pos).length = s.pos := by
      simp [List.length_take] <;> omega
    refine ⟨⟨s.data.take s.pos ++ src ++ s.data.drop (s.pos + src.length),
      s.pos + src.length⟩, ?_, ?_, ?_, ?_⟩
    · refine Eq.trans (fixed_advance_eq (fixedOps.write s src) src.length ?_) rfl
      show src.length ≤
        ((s.data.take s.pos ++ src ++ s.data.drop (s.pos + src.length)).drop s.pos).length
      simp [List.length_drop, List.length_append, hA] <;> omega
    · show s.pos + src.length ≤
        (s.data.take s.pos ++ src ++ s.data.drop (s.pos + src.length)).length
      simp [List.length_append, hA, List.length_drop] <;> omega
    · show (s.data.take s.pos ++ src ++ s.data.drop (s.pos + src.length)).take
          (s.pos + src.length) = fixedContents s ++ src
      rw [take_mid _ _ _ _ hA]
      rfl
    · show ((s.data.take s.pos ++ src ++ s.data.drop (s.pos + src.length)).drop
          (s.pos + src.length)).length = _
      simp [fixedOps, FixedView.view, List.length_drop, List.length_append, hA] <;> omega

/-- `impl BufMut for Vec<u8>` satisfies the write-cursor contract. -/
theorem vecLaws : BufLaws vecOps vecInv vecContents := by
  constructor
  · intro v h
    by_cases hcap : v.store.length = v.len <;>
      simp [vecOps, hcap, vecInv, List.length_append] <;> omega
  · intro v h
    by_cases hcap : v.store.length = v.len <;> simp [vecOps, hcap]
  · intro v h
    by_cases hcap : v.store.length = v.len <;>
      simp [vecOps, hcap, vecContents, List.take_append_of_le_length, h]
  · intro v h hr
    by_cases hcap : v.store.length = v.len <;>
      · apply List.ne_nil_of_length_pos
        simp [vecOps, hcap, List.length_drop, List.length_append] <;> omega
  · intro v src hInv hlen
    by_cases hcap : v.store.length = v.len
    · have hsrc : src.length ≤ 64 := by
        simpa [vecOps, hcap, List.length_drop, List.length_append] using hlen
      have hb : (vecOps.bytes_mut v).2 = ⟨v.store ++ List.replicate 64 0, v.len⟩ := by
        simp [vecOps, hcap]
      have hWlen : (v.store ++ List.replicate 64 0).length = v.len + 64 := by
        simp [hcap]
      have hA : ((v.store ++ List.replicate 64 0).take v.len).length = v.len := by
        simp [hWlen] <;> omega
      refine ⟨⟨(v.store ++ List.replicate 64 0).take v.len ++ src ++
        (v.store ++ List.replicate 64 0).drop (v.len + src.length),
        v.len + src.length⟩, ?_, ?_, ?_, ?_⟩
      · rw [hb]
        refine Eq.trans (vec_advance_eq (vecOps.write ⟨v.store ++ List.replicate 64 0, v.len⟩ src)
          src.length ?_) rfl
        simp [vecOps, List.length_append, List.length_take, List.length_drop, hWlen] <;> omega
      · show v.len + src.length ≤
          ((v.store ++ List.replicate 64 0).take v.len ++ src ++
            (v.store ++ List.replicate 64 0).drop (v.len + src.length)).length
        simp [List.length_append, hA, List.length_drop, hWlen] <;> omega
      · simp only [vecContents]
        rw [take_mid _ _ _ _ hA]
        simp [List.take_append_of_le_length, hInv]
      · show USIZE_MAX - (v.len + src.length) = USIZE_MAX - v.len - src.length
        omega
    · have hsrc : src.length ≤ v.store.length - v.len := by
        simpa [vecOps, hcap, List.length_drop] using hlen
      have hps : v.len + src.length ≤ v.store.length := by omega
      have hb : (vecOps.bytes_mut v).2 = v := by
        simp [vecOps, hcap]
      have hA : (v.store.take v.len).length = v.len := by
        simp [List.length_take] <;> omega
      refine ⟨⟨v.store.take v.len ++ src ++ v.store.drop (v.len + src.length),
        v.len + src.length⟩, ?_, ?_, ?_, ?_⟩
      · rw [hb]
        refine Eq.trans (vec_advance_eq (vecOps.write v src) src.length ?_) rfl
        show src.length ≤
          (v.store.take v.len ++ src ++ v.store.drop (v.len + src.length)).length - v.len
        simp [List.length_append, hA, List.length_drop] <;> omega
      · show v.len + src.length ≤
          (v.store.take v.len ++ src ++ v.store.drop (v.len + src.length)).length
        simp [List.length_append, hA, List.length_drop] <;> omega
      · show (v.store.take v.len ++ src ++ v.store.drop (v.len + src.length)).take
            (v.len + src.length) = vecContents v ++ src
        rw [take_mid _ _ _ _ hA]
        rfl
      · show USIZE_MAX - (v.len + src.length) = USIZE_MAX - v.len - src.length
        omega

/-- The contiguous list reader satisfies the read-cursor contract. -/
theorem listReadLaws : ReadLaws listReadOps (fun _ => True) id := by
  constructor
  · exact fun t _ => rfl
  · exact fun t _ => (List.take_length t).symm
  · exact fun t _ h => List.ne_nil_of_length_pos h
  · exact fun t l _ _ => trivial
  · exact fun t l _ _ => rfl

/-- Unfolding of one iteration of the `put_slice` loop. -/
theorem put_slice_loop_succ {σ : Type} (ops : BufMutOps σ) (src : List Nat)
    (fuel : Nat) (s : σ) (off : Nat) (h : off < src.length) :
    put_slice_loop ops src (fuel + 1) s off =
      match ops.advance_mut (ops.write (ops.bytes_mut s).2
          ((src.drop off).take (min (ops.bytes_mut s).1.length (src.length - off))))
          (min (ops.bytes_mut s).1.length (src.length - off)) with
      | Except.ok s3 => put_slice_loop ops src fuel s3
          (off + min (ops.bytes_mut s).1.length (src.length - off))
      | Except.error e => Except.error e := by
  simp [put_slice_loop, h]

/-- Correctness of the `put_slice` copy loop for any implementation satisfying
the write-cursor contract: it finishes within `src.length - off` iterations,
appends the still-uncopied bytes `src.drop off`, and consumes exactly that
much remaining capacity. -/
theorem put_slice_loop_ok {σ : Type} (ops : BufMutOps σ) (Inv : σ → Prop)
    (contents : σ → List Nat) (L : BufLaws ops Inv contents) (src : List Nat) :
    ∀ fuel s off, Inv s → off ≤ src.length →
      src.length - off ≤ ops.remaining_mut s → src.length - off ≤ fuel →
      ∃ s2, put_slice_loop ops src fuel s off = Except.ok s2 ∧ Inv s2 ∧
        contents s2 = contents s ++ src.drop off ∧
        ops.remaining_mut s2 = ops.remaining_mut s - (src.length - off) := by
  intro fuel
  induction fuel with
  | zero =>
    intro s off hInv hoff hrem hfuel
    have hoe : off = src.length := by omega
    subst hoe
    exact ⟨s, by simp [put_slice_loop], hInv, by simp, by omega⟩
  | succ fuel ih =>
    intro s off hInv hoff hrem hfuel
    by_cases hlt : off < src.length
    · have hrs : 0 < ops.remaining_mut s := by omega
      have hne := L.bytes_ne s hInv hrs
      have hp1 : 0 < (ops.bytes_mut s).1.length := List.length_pos.mpr hne
      set cnt := min (ops.bytes_mut s).1.length (src.length - off) with hcnt
      have hcnt1 : 1 ≤ cnt := by omega
      have hcntoff : cnt ≤ src.length - off := by omega
      have hcntle : cnt ≤ (ops.bytes_mut s).1.length := by omega
      have hchunk : ((src.drop off).take cnt).length = cnt := by
        simp [List.length_take, List.length_drop] <;> omega
      obtain ⟨s3, hadv, hInv3, hc3, hr3⟩ :=
        L.write_advance_ok s ((src.drop off).take cnt) hInv (by omega)
      rw [hchunk] at hadv
      obtain ⟨s2, hloop, hInv2, hc2, hr2⟩ :=
        ih s3 (off + cnt) hInv3 (by omega) (by omega) (by omega)
      refine ⟨s2, ?_, hInv2, ?_, ?_⟩
      · rw [put_slice_loop_succ ops src fuel s off hlt, ← hcnt, hadv]
        exact hloop
      · rw [hc2, hc3, List.append_assoc]
        congr 1
        rw [← List.drop_drop, List.take_append_drop]
      · omega
    · have hoe : off = src.length := by omega
      subst hoe
      exact ⟨s, by simp [put_slice_loop], hInv, by simp, by omega⟩

/-- `put_slice` under the capacity precondition: success, all of `src`
appended, remaining capacity reduced by `src.length`. -/
theorem put_slice_ok {σ : Type} (ops : BufMutOps σ) (Inv : σ → Prop)
    (contents : σ → List Nat) (L : BufLaws ops Inv contents) (s : σ)
    (src : List Nat) (hInv : Inv s) (h : src.length ≤ ops.remaining_mut s) :
    ∃ s2, put_slice ops s src = Except.ok s2 ∧ Inv s2 ∧
      contents s2 = contents s ++ src ∧
      ops.remaining_mut s2 = ops.remaining_mut s - src.length := by
  obtain ⟨s2, hloop, hInv2, hc, hr⟩ :=
    put_slice_loop_ok ops Inv contents L src src.length s 0 hInv (by omega)
      (by omega) (by omega)
  refine ⟨s2, ?_, hInv2, by simpa using hc, by simpa using hr⟩
  rw [put_slice, if_pos h]
  exact hloop

/-- Unfolding of one iteration of the `put` loop. -/
theorem put_loop_succ {σ τ : Type} (wops : BufMutOps σ) (rops : ReadBufOps τ)
    (fuel : Nat) (s : σ) (t : τ) (h : 0 < rops.remaining t) :
    put_loop wops rops (fuel + 1) s t =
      match wops.advance_mut (wops.write (wops.bytes_mut s).2
          ((rops.bytes t).take (min (rops.bytes t).length (wops.bytes_mut s).1.length)))
          (min (rops.bytes t).length (wops.bytes_mut s).1.length) with
      | Except.ok s3 => put_loop wops rops fuel s3
          (rops.advance t (min (rops.bytes t).length (wops.bytes_mut s).1.length))
      | Except.error e => Except.error (e,
          rops.advance t (min (rops.bytes t).length (wops.bytes_mut s).1.length)) := by
  simp [put_loop, h]

/-- Correctness of the `put` copy loop for any destination satisfying the
write-cursor contract and any source satisfying the read-cursor contract:
it terminates, drains the source, and appends exactly the source's bytes in
order to the destination. -/
theorem put_loop_ok {σ τ : Type} (wops : BufMutOps σ) (rops : ReadBufOps τ)
    (Inv : σ → Prop) (contents : σ → List Nat) (RInv : τ → Prop)
    (toL : τ → List Nat) (L : BufLaws wops Inv contents)
    (R : ReadLaws rops RInv toL) :
    ∀ fuel s t, Inv s → RInv t → rops.remaining t ≤ wops.remaining_mut s →
      rops.remaining t ≤ fuel →
      ∃ s2 t2, put_loop wops rops fuel s t = Except.ok (s2, t2) ∧ Inv s2 ∧
        RInv t2 ∧ contents s2 = contents s ++ toL t ∧ rops.remaining t2 = 0 ∧
        wops.remaining_mut s2 = wops.remaining_mut s - rops.remaining t := by
  intro fuel
  induction fuel with
  | zero =>
    intro s t hs ht hcap hfuel
    have h0 : ¬ 0 < rops.remaining t := by omega
    refine ⟨s, t, by simp [put_loop, h0], hs, ht, ?_, by omega, by omega⟩
    have : (toL t).length = 0 := by rw [← R.remaining_eq t ht]; omega
    rw [List.length_eq_zero.mp this]
    simp
  | succ fuel ih =>
    intro s t hs ht hcap hfuel
    by_cases h0 : 0 < rops.remaining t
    · have hrt := R.remaining_eq t ht
      have hbyte := R.bytes_eq_take t ht
      have hbne := R.bytes_ne t ht h0
      have hb1 : 0 < (rops.bytes t).length := List.length_pos.mpr hbne
      have hblen : (rops.bytes t).length ≤ (toL t).length := by
        have := congrArg List.length hbyte
        simp [List.length_take] at this
        omega
      have hdne := L.bytes_ne s hs (by omega)
      have hd1 : 0 < (wops.bytes_mut s).1.length := List.length_pos.mpr hdne
      set l := min (rops.bytes t).length (wops.bytes_mut s).1.length with hl
      have hl1 : 1 ≤ l := by omega
      have hlb : l ≤ (rops.bytes t).length := by omega
      have hld : l ≤ (wops.bytes_mut s).1.length := by omega
      have hchunkval : (rops.bytes t).take l = (toL t).take l := by
        rw [hbyte, List.take_take, min_eq_left hlb]
      have hchunk : ((rops.bytes t).take l).length = l := by
        simp [List.length_take] <;> omega
      obtain ⟨s3, hadv, hInv3, hc3, hr3⟩ :=
        L.write_advance_ok s ((rops.bytes t).take l) hs (by omega)
      rw [hchunk] at hadv
      have hRInv2 := R.advance_inv t l ht hlb
      have htoL2 := R.advance_toL t l ht hlb
      have hrem2 : rops.remaining (rops.advance t l) = (toL t).length - l := by
        rw [R.remaining_eq _ hRInv2, htoL2, List.length_drop]
      obtain ⟨s2, tf, hloop, hInv2, hRInvf, hc2, hremf, hr2⟩ :=
        ih s3 (rops.advance t l) hInv3 hRInv2 (by omega) (by omega)
      refine ⟨s2, tf, ?_, hInv2, hRInvf, ?_, hremf, ?_⟩
      · rw [put_loop_succ wops rops fuel s t h0, ← hl, hadv]
        exact hloop
      · rw [hc2, hc3, hchunkval, htoL2, List.append_assoc, List.take_append_drop]
      · omega
    · have hrt := R.remaining_eq t ht
      refine ⟨s, t, by simp [put_loop, h0], hs, ht, ?_, by omega, by omega⟩
      have : (toL t).length = 0 := by omega
      rw [List.length_eq_zero.mp this]
      simp

/-- `put` under the capacity precondition: success, the source drained, its
bytes appended in order. -/
theorem put_ok {σ τ : Type} (wops : BufMutOps σ) (rops : ReadBufOps τ)
    (Inv : σ → Prop) (contents : σ → List Nat) (RInv : τ → Prop)
    (toL : τ → List Nat) (L : BufLaws wops Inv contents)
    (R : ReadLaws rops RInv toL) (s : σ) (t : τ) (hs : Inv s) (ht : RInv t)
    (h : rops.remaining t ≤ wops.remaining_mut s) :
    ∃ s2 t2, put wops rops s t = Except.ok (s2, t2) ∧ Inv s2 ∧ RInv t2 ∧
      contents s2 = contents s ++ toL t ∧ rops.remaining t2 = 0 ∧
      wops.remaining_mut s2 = wops.remaining_mut s - rops.remaining t := by
  obtain ⟨s2, tf, hloop, h1, h2, h3, h4, h5⟩ :=
    put_loop_ok wops rops Inv contents RInv toL L R (rops.remaining t) s t hs ht
      h (by omega)
  refine ⟨s2, tf, ?_, h1, h2, h3, h4, h5⟩
  rw [put, if_pos h]
  exact hloop

/-- `to_be_bytes w n` has exactly `w` bytes. -/
theorem length_to_be_bytes (w n : Nat) : (to_be_bytes w n).length = w := by
  induction w generalizing n with
  | zero => rfl
  | succ w ih => simp [to_be_bytes, ih]

/-- `to_le_bytes w n` has exactly `w` bytes. -/
theorem length_to_le_bytes (w n : Nat) : (to_le_bytes w n).length = w := by
  induction w generalizing n with
  | zero => rfl
  | succ w ih => simp [to_le_bytes, ih]

/-- The 4-byte big-endian encoding denotes its input (for `u32` values). -/
theorem beVal_to_be_bytes_4 (v : Nat) (hv : v < 2 ^ 32) :
    beVal (to_be_bytes 4 v) = v := by
  simp [to_be_bytes, beVal, List.foldl]
  omega

/-- The little-endian encoding is the reverse of the big-endian one
(4-byte case). -/
theorem le_eq_reverse_be_4 (v : Nat) : to_le_bytes 4 v = (to_be_bytes 4 v).reverse := by
  simp [to_be_bytes, to_le_bytes]
  omega

/-- Byte-at-a-time writing into a `Vec<u8>` succeeds and appends the bytes in
order, as long as the total length fits in `usize`. -/
theorem put_u8_all_vec_ok :
    ∀ (bs : List Nat) (v : VecBuf), vecInv v → v.len + bs.length ≤ USIZE_MAX →
      ∃ v2, put_u8_all vecOps v bs = Except.ok v2 ∧ vecInv v2 ∧
        vecContents v2 = vecContents v ++ bs ∧ v2.len = v.len + bs.length := by
  intro bs
  induction bs with
  | nil =>
    intro v hv _
    exact ⟨v, rfl, hv, by simp, by simp⟩
  | cons b bs ih =>
    intro v hv hcap
    have hM : USIZE_MAX = 18446744073709551615 := rfl
    simp only [List.length_cons] at hcap
    obtain ⟨v1, hput, hv1, hc1, hr1⟩ :=
      put_slice_ok vecOps vecInv vecContents vecLaws v [b] hv
        (by simp only [vecOps, List.length_singleton]; omega)
    have hlen1 : v1.len = v.len + 1 := by
      have hlc := congrArg List.length hc1
      simp [vecContents, List.length_take, List.length_append] at hlc
      omega
    obtain ⟨v2, hloop, hv2, hc2, hl2⟩ := ih v1 hv1 (by omega)
    refine ⟨v2, ?_, hv2, ?_, by simp only [List.length_cons]; omega⟩
    · simp only [put_u8_all, put_u8]
      rw [hput]
      exact hloop
    · rw [hc2, hc1, List.append_assoc]
      rfl

/-- C1: for every destination buffer satisfying the write-cursor contract and
every byte slice `src`, `put_slice src` with `src.len() > remaining_mut()`
fails (the "buffer overflow" assertion) with the buffer in exactly its
original state — remaining capacity and contents unchanged; with
`src.len() <= remaining_mut()` it succeeds, appends all of `src`, and
decreases `remaining_mut()` by exactly `src.length`. -/
theorem put_slice_atomic_and_exact {σ : Type} (ops : BufMutOps σ) (Inv : σ → Prop)
    (contents : σ → List Nat) (L : BufLaws ops Inv contents) (s : σ)
    (src : List Nat) (hInv : Inv s) :
    (ops.remaining_mut s < src.length → put_slice ops s src = Except.error s) ∧
    (src.length ≤ ops.remaining_mut s →
      ∃ s2, put_slice ops s src = Except.ok s2 ∧ Inv s2 ∧
        contents s2 = contents s ++ src ∧
        ops.remaining_mut s2 + src.length = ops.remaining_mut s) := by
  constructor
  · intro h
    rw [put_slice, if_neg (by omega)]
  · intro h
    obtain ⟨s2, h1, h2, h3, h4⟩ := put_slice_ok ops Inv contents L s src hInv h
    exact ⟨s2, h1, h2, h3, by omega⟩

/-- Witness for C1 on a fixed view of 5 zero bytes: an 11-byte `put_slice`
panics leaving the view unchanged; a 3-byte `put_slice` writes `[1, 2, 3]`
and leaves 2 bytes remaining. -/
theorem put_slice_atomic_and_exact_witness :
    put_slice fixedOps ⟨[0, 0, 0, 0, 0], 0⟩ [1, 2, 3, 4, 5, 6, 7, 8, 9, 10, 11]
      = Except.error ⟨[0, 0, 0, 0, 0], 0⟩ ∧
    ∃ s2, put_slice fixedOps ⟨[0, 0, 0, 0, 0], 0⟩ [1, 2, 3] = Except.ok s2 ∧
      fixedInv s2 ∧ fixedContents s2 = [1, 2, 3] ∧
      fixedOps.remaining_mut s2 + 3 = 5 :=
  ⟨(put_slice_atomic_and_exact fixedOps fixedInv fixedContents fixedLaws
      ⟨[0, 0, 0, 0, 0], 0⟩ [1, 2, 3, 4, 5, 6, 7, 8, 9, 10, 11] (by decide)).1
      (by decide),
   (put_slice_atomic_and_exact fixedOps fixedInv fixedContents fixedLaws
      ⟨[0, 0, 0, 0, 0], 0⟩ [1, 2, 3] (by decide)).2 (by decide)⟩

/-- C2: for every destination satisfying the write-cursor contract and every
source satisfying the read-cursor contract, `put src` panics immediately —
both cursors untouched — when `remaining_mut() < src.remaining()`; otherwise
it terminates having copied every byte of the source in order, leaving the
source with zero remaining bytes and the destination's remaining capacity
reduced by exactly the source's size. -/
theorem put_copies_all_source {σ τ : Type} (wops : BufMutOps σ)
    (rops : ReadBufOps τ) (Inv : σ → Prop) (contents : σ → List Nat)
    (RInv : τ → Prop) (toL : τ → List Nat) (L : BufLaws wops Inv contents)
    (R : ReadLaws rops RInv toL) (s : σ) (t : τ) (hs : Inv s) (ht : RInv t) :
    (wops.remaining_mut s < rops.remaining t →
      put wops rops s t = Except.error (s, t)) ∧
    (rops.remaining t ≤ wops.remaining_mut s →
      ∃ s2 t2, put wops rops s t = Except.ok (s2, t2) ∧ Inv s2 ∧ RInv t2 ∧
        contents s2 = contents s ++ toL t ∧ rops.remaining t2 = 0 ∧
        wops.remaining_mut s2 + rops.remaining t = wops.remaining_mut s) := by
  constructor
  · intro h
    rw [put, if_neg (by omega)]
  · intro h
    obtain ⟨s2, t2, h1, h2, h3, h4, h5, h6⟩ :=
      put_ok wops rops Inv contents RInv toL L R s t hs ht h
    exact ⟨s2, t2, h1, h2, h3, h4, h5, by omega⟩

/-- Witness for C2: copying the 2-byte source `[7, 8]` into a fixed view of
3 zero bytes drains the source and writes both bytes. -/
theorem put_copies_all_source_witness :
    ∃ s2 t2, put fixedOps listReadOps ⟨[0, 0, 0], 0⟩ [7, 8] = Except.ok (s2, t2) ∧
      fixedInv s2 ∧ True ∧ fixedContents s2 = [7, 8] ∧
      listReadOps.remaining t2 = 0 ∧ fixedOps.remaining_mut s2 + 2 = 3 :=
  (put_copies_all_source fixedOps listReadOps fixedInv fixedContents
      (fun _ => True) id fixedLaws listReadLaws ⟨[0, 0, 0], 0⟩ [7, 8]
      (by decide) trivial).2 (by decide)

/-- C3: for every `u32` value and every contract-satisfying buffer with at
least 4 bytes of remaining capacity, `put_u32` appends exactly the 4-byte
big-endian representation and `put_u32_le` exactly the 4-byte little-endian
representation (the reverse of the former, whose base-256 value is the input),
each consuming exactly 4 bytes of capacity. -/
theorem put_u32_endianness {σ : Type} (ops : BufMutOps σ) (Inv : σ → Prop)
    (contents : σ → List Nat) (L : BufLaws ops Inv contents) (s : σ) (v : Nat)
    (hs : Inv s) (hv : v < 2 ^ 32) (hr : 4 ≤ ops.remaining_mut s) :
    (∃ s2, put_u32 ops s v = Except.ok s2 ∧ Inv s2 ∧
      contents s2 = contents s ++ to_be_bytes 4 v ∧
      ops.remaining_mut s2 + 4 = ops.remaining_mut s) ∧
    (∃ s2, put_u32_le ops s v = Except.ok s2 ∧ Inv s2 ∧
      contents s2 = contents s ++ to_le_bytes 4 v ∧
      ops.remaining_mut s2 + 4 = ops.remaining_mut s) ∧
    beVal (to_be_bytes 4 v) = v ∧
    to_le_bytes 4 v = (to_be_bytes 4 v).reverse ∧
    (to_be_bytes 4 v).length = 4 := by
  refine ⟨?_, ?_, beVal_to_be_bytes_4 v hv, le_eq_reverse_be_4 v,
    length_to_be_bytes 4 v⟩
  · obtain ⟨s2, h1, h2, h3, h4⟩ := put_slice_ok ops Inv contents L s
      (to_be_bytes 4 v) hs (by rw [length_to_be_bytes]; omega)
    rw [length_to_be_bytes] at h4
    exact ⟨s2, h1, h2, h3, by omega⟩
  · obtain ⟨s2, h1, h2, h3, h4⟩ := put_slice_ok ops Inv contents L s
      (to_le_bytes 4 v) hs (by rw [length_to_le_bytes]; omega)
    rw [length_to_le_bytes] at h4
    exact ⟨s2, h1, h2, h3, by omega⟩

/-- Witness for C3: writing `0x01020304` into an empty `Vec<u8>` yields
`[0x01, 0x02, 0x03, 0x04]` big-endian and `[0x04, 0x03, 0x02, 0x01]`
little-endian. -/
theorem put_u32_endianness_witness :
    (∃ s2, put_u32 vecOps ⟨[], 0⟩ 0x01020304 = Except.ok s2 ∧ vecInv s2 ∧
      vecContents s2 = [1, 2, 3, 4] ∧
      vecOps.remaining_mut s2 + 4 = vecOps.remaining_mut ⟨[], 0⟩) ∧
    (∃ s2, put_u32_le vecOps ⟨[], 0⟩ 0x01020304 = Except.ok s2 ∧ vecInv s2 ∧
      vecContents s2 = [4, 3, 2, 1] ∧
      vecOps.remaining_mut s2 + 4 = vecOps.remaining_mut ⟨[], 0⟩) ∧
    beVal (to_be_bytes 4 0x01020304) = 0x01020304 ∧
    to_le_bytes 4 0x01020304 = (to_be_bytes 4 0x01020304).reverse ∧
    (to_be_bytes 4 0x01020304).length = 4 :=
  put_u32_endianness vecOps vecInv vecContents vecLaws ⟨[], 0⟩ 0x01020304
    (by decide) (by decide) (by decide)

/-- C4: for every `u64` value `n` and every `nbytes` in `[0, 8]`, and every
contract-satisfying buffer with at least `nbytes` bytes of remaining
capacity, `put_uint n nbytes` appends exactly the trailing `nbytes` bytes of
the 8-byte big-endian representation of `n`, and `put_uint_le n nbytes`
exactly the leading `nbytes` bytes of the 8-byte little-endian
representation; each appended slice has length `nbytes` and consumes exactly
`nbytes` bytes of capacity. -/
theorem put_uint_variable_width {σ : Type} (ops : BufMutOps σ) (Inv : σ → Prop)
    (contents : σ → List Nat) (L : BufLaws ops Inv contents) (s : σ)
    (n nbytes : Nat) (hs : Inv s) (hn : n < 2 ^ 64) (hnb : nbytes ≤ 8)
    (hr : nbytes ≤ ops.remaining_mut s) :
    (∃ s2, put_uint ops s n nbytes = Except.ok s2 ∧ Inv s2 ∧
      contents s2 = contents s ++ (to_be_bytes 8 n).drop (8 - nbytes) ∧
      ((to_be_bytes 8 n).drop (8 - nbytes)).length = nbytes ∧
      ops.remaining_mut s2 + nbytes = ops.remaining_mut s) ∧
    (∃ s2, put_uint_le ops s n nbytes = Except.ok s2 ∧ Inv s2 ∧
      contents s2 = contents s ++ (to_le_bytes 8 n).take nbytes ∧
      ((to_le_bytes 8 n).take nbytes).length = nbytes ∧
      ops.remaining_mut s2 + nbytes = ops.remaining_mut s) := by
  have hbl : ((to_be_bytes 8 n).drop (8 - nbytes)).length = nbytes := by
    simp [List.length_drop, length_to_be_bytes] <;> omega
  have hll : ((to_le_bytes 8 n).take nbytes).length = nbytes := by
    simp [List.length_take, length_to_le_bytes] <;> omega
  constructor
  · obtain ⟨s2, h1, h2, h3, h4⟩ := put_slice_ok ops Inv contents L s
      ((to_be_bytes 8 n).drop (8 - nbytes)) hs (by rw [hbl]; omega)
    rw [hbl] at h4
    refine ⟨s2, ?_, h2, h3, hbl, by omega⟩
    rw [put_uint, if_pos hnb]
    exact h1
  · obtain ⟨s2, h1, h2, h3, h4⟩ := put_slice_ok ops Inv contents L s
      ((to_le_bytes 8 n).take nbytes) hs (by rw [hll]; omega)
    rw [hll] at h4
    refine ⟨s2, ?_, h2, h3, hll, by omega⟩
    rw [put_uint_le, if_pos hnb]
    exact h1

/-- Witness for C4: `put_uint 0x010203 3` into an empty `Vec<u8>` yields
exactly the 3 bytes `[0x01, 0x02, 0x03]` (not 8), `put_uint_le` yields
`[0x03, 0x02, 0x01]`. -/
theorem put_uint_variable_width_witness :
    (∃ s2, put_uint vecOps ⟨[], 0⟩ 0x010203 3 = Except.ok s2 ∧ vecInv s2 ∧
      vecContents s2 = [1, 2, 3] ∧
      ((to_be_bytes 8 0x010203).drop 5).length = 3 ∧
      vecOps.remaining_mut s2 + 3 = vecOps.remaining_mut ⟨[], 0⟩) ∧
    (∃ s2, put_uint_le vecOps ⟨[], 0⟩ 0x010203 3 = Except.ok s2 ∧ vecInv s2 ∧
      vecContents s2 = [3, 2, 1] ∧
      ((to_le_bytes 8 0x010203).take 3).length = 3 ∧
      vecOps.remaining_mut s2 + 3 = vecOps.remaining_mut ⟨[], 0⟩) :=
  put_uint_variable_width vecOps vecInv vecContents vecLaws ⟨[], 0⟩ 0x010203 3
    (by decide) (by decide) (by decide) (by decide)

/-- C5: for both canonical implementations, `bytes_mut` (a total function
here, hence panic-free) returns an empty region exactly when `remaining_mut`
is zero, the region's length is at most `remaining_mut`, and the region
starts at the current position (for the fixed view, byte `i` of the region is
byte `pos + i` of the underlying data; for `Vec<u8>`, the region is the tail
of the — possibly re-reserved — allocation starting at `len`).  The `Vec`
bounds assume the Rust invariants `len ≤ capacity ≤ isize::MAX`. -/
theorem bytes_mut_contract :
    (∀ v : FixedView,
      ((fixedOps.bytes_mut v).1 = [] ↔ fixedOps.remaining_mut v = 0) ∧
      (fixedOps.bytes_mut v).1.length ≤ fixedOps.remaining_mut v ∧
      (fixedOps.bytes_mut v).2 = v ∧
      ∀ i : Nat, ((fixedOps.bytes_mut v).1)[i]? = v.data[v.pos + i]?) ∧
    (∀ v : VecBuf, vecInv v → v.store.length ≤ 2 ^ 63 →
      ((vecOps.bytes_mut v).1 = [] ↔ vecOps.remaining_mut v = 0) ∧
      (vecOps.bytes_mut v).1.length ≤ vecOps.remaining_mut v ∧
      (vecOps.bytes_mut v).2.len = v.len ∧
      (vecOps.bytes_mut v).1 = (vecOps.bytes_mut v).2.store.drop v.len) := by
  constructor
  · intro v
    refine ⟨?_, ?_, rfl, ?_⟩
    · simp only [fixedOps, FixedView.view, List.drop_eq_nil_iff, List.length_drop]
      omega
    · simp [fixedOps, FixedView.view]
    · intro i
      exact List.getElem?_drop v.data v.pos i
  · intro v hInv hcap
    have hM : USIZE_MAX = 18446744073709551615 := rfl
    have hc : (2 : Nat) ^ 63 = 9223372036854775808 := by norm_num
    refine ⟨?_, ?_, ?_, ?_⟩
    · have h1 : (vecOps.bytes_mut v).1 ≠ [] := by
        apply List.ne_nil_of_length_pos
        by_cases hcaplen : v.store.length = v.len <;>
          simp [vecOps, hcaplen, List.length_drop, List.length_append] <;> omega
      have h2 : vecOps.remaining_mut v ≠ 0 := by
        simp only [vecOps]
        omega
      exact iff_of_false h1 h2
    · by_cases hcaplen : v.store.length = v.len <;>
        simp [vecOps, hcaplen, List.length_drop, List.length_append] <;> omega
    · by_cases hcaplen : v.store.length = v.len <;> simp [vecOps, hcaplen]
    · by_cases hcaplen : v.store.length = v.len <;> simp [vecOps, hcaplen]

/-- Witness for C5: the fixed view `[9, 9]` at position 1 and the `Vec` with
a 1-byte allocation and length 0. -/
theorem bytes_mut_contract_witness :
    ((fixedOps.bytes_mut ⟨[9, 9], 1⟩).1 = [] ↔
      fixedOps.remaining_mut ⟨[9, 9], 1⟩ = 0) ∧
    ((fixedOps.bytes_mut ⟨[9, 9], 1⟩).1)[0]? = ([9, 9] : List Nat)[1 + 0]? ∧
    ((vecOps.bytes_mut ⟨[5], 0⟩).1 = [] ↔ vecOps.remaining_mut ⟨[5], 0⟩ = 0) ∧
    (vecOps.bytes_mut ⟨[5], 0⟩).1.length ≤ vecOps.remaining_mut ⟨[5], 0⟩ :=
  ⟨(bytes_mut_contract.1 ⟨[9, 9], 1⟩).1,
   (bytes_mut_contract.1 ⟨[9, 9], 1⟩).2.2.2 0,
   (bytes_mut_contract.2 ⟨[5], 0⟩ (by decide) (by decide)).1,
   (bytes_mut_contract.2 ⟨[5], 0⟩ (by decide) (by decide)).2.1⟩

/-- C6: on the fixed view, `advance_mut cnt` panics exactly when `cnt`
exceeds the current region length; when `cnt` is in bounds it replaces the
view with its tail starting at `cnt`, decreasing `remaining_mut` by exactly
`cnt`, without touching the underlying region's bytes. -/
theorem slice_advance_mut_bounds (v : FixedView) (cnt : Nat) :
    ((∃ e, fixedOps.advance_mut v cnt = Except.error e) ↔
      fixedOps.remaining_mut v < cnt) ∧
    (cnt ≤ fixedOps.remaining_mut v →
      fixedOps.advance_mut v cnt = Except.ok ⟨v.data, v.pos + cnt⟩ ∧
      FixedView.view ⟨v.data, v.pos + cnt⟩ = v.view.drop cnt ∧
      fixedOps.remaining_mut ⟨v.data, v.pos + cnt⟩ + cnt
        = fixedOps.remaining_mut v ∧
      (⟨v.data, v.pos + cnt⟩ : FixedView).data = v.data) := by
  constructor
  · by_cases hle : cnt ≤ v.view.length
    · simp only [fixedOps]
      rw [if_pos hle]
      simp
      omega
    · simp only [fixedOps]
      rw [if_neg hle]
      simp
      omega
  · intro h
    have h2 : cnt ≤ v.data.length - v.pos := by
      simpa [fixedOps, FixedView.view] using h
    refine ⟨fixed_advance_eq v cnt (by simpa [fixedOps] using h), ?_, ?_, rfl⟩
    · show v.data.drop (v.pos + cnt) = (v.data.drop v.pos).drop cnt
      rw [List.drop_drop]
    · show (v.data.drop (v.pos + cnt)).length + cnt = (v.data.drop v.pos).length
      simp only [List.length_drop]
      omega

/-- Witness for C6: on the view `[5, 6, 7]` at position 0, `advance_mut 4`
panics while `advance_mut 2` moves to position 2. -/
theorem slice_advance_mut_bounds_witness :
    ((∃ e, fixedOps.advance_mut ⟨[5, 6, 7], 0⟩ 4 = Except.error e) ↔
      fixedOps.remaining_mut ⟨[5, 6, 7], 0⟩ < 4) ∧
    (fixedOps.advance_mut ⟨[5, 6, 7], 0⟩ 2 = Except.ok ⟨[5, 6, 7], 2⟩ ∧
      FixedView.view ⟨[5, 6, 7], 2⟩ = (FixedView.view ⟨[5, 6, 7], 0⟩).drop 2 ∧
      fixedOps.remaining_mut ⟨[5, 6, 7], 2⟩ + 2
        = fixedOps.remaining_mut ⟨[5, 6, 7], 0⟩ ∧
      (⟨[5, 6, 7], 2⟩ : FixedView).data = [5, 6, 7]) :=
  ⟨(slice_advance_mut_bounds ⟨[5, 6, 7], 0⟩ 4).1,
   (slice_advance_mut_bounds ⟨[5, 6, 7], 0⟩ 2).2 (by decide)⟩

/-- C7: for both canonical implementations and every cursor state — including
a fully exhausted fixed view — `advance_mut 0` returns normally with the
state exactly unchanged (so `remaining_mut`, length, and contents are all
identical). -/
theorem advance_mut_zero_noop :
    (∀ v : FixedView, fixedOps.advance_mut v 0 = Except.ok v) ∧
    (∀ w : VecBuf, vecOps.advance_mut w 0 = Except.ok w) := by
  constructor
  · intro v
    rw [fixed_advance_eq v 0 (by omega)]
    simp
  · intro w
    rw [vec_advance_eq w 0 (by omega)]
    simp

/-- C8: writing the bytes of `s` one at a time with `put_u8` into an
initially empty `Vec<u8>` produces exactly the same final contents as a
single `put_slice s` — both equal `s`, so growth loses no previously
written bytes. -/
theorem vec_put_u8_eq_put_slice (s : List Nat) (h : s.length ≤ USIZE_MAX) :
    ∃ v1 v2, put_u8_all vecOps ⟨[], 0⟩ s = Except.ok v1 ∧
      put_slice vecOps ⟨[], 0⟩ s = Except.ok v2 ∧
      vecContents v1 = s ∧ vecContents v2 = s := by
  obtain ⟨v1, h1, hv1, hc1, hl1⟩ := put_u8_all_vec_ok s ⟨[], 0⟩ (by decide)
    (by simpa using h)
  obtain ⟨v2, h2, hv2, hc2, hr2⟩ := put_slice_ok vecOps vecInv vecContents
    vecLaws ⟨[], 0⟩ s (by decide) (by simpa [vecOps, USIZE_MAX] using h)
  exact ⟨v1, v2, h1, h2, by simpa using hc1, by simpa using hc2⟩

/-- Witness for C8 at `s = [1, 2, 3]`. -/
theorem vec_put_u8_eq_put_slice_witness :
    ∃ v1 v2, put_u8_all vecOps ⟨[], 0⟩ [1, 2, 3] = Except.ok v1 ∧
      put_slice vecOps ⟨[], 0⟩ [1, 2, 3] = Except.ok v2 ∧
      vecContents v1 = [1, 2, 3] ∧ vecContents v2 = [1, 2, 3] :=
  vec_put_u8_eq_put_slice [1, 2, 3] (by decide)

/-- C9: for `Vec<u8>` in every state, `remaining_mut` equals
`usize::MAX - len`; `bytes_mut` never changes it (even when it reserves).
It moves only through `advance_mut cnt`, which sets `len` to `len + cnt`
whenever the new length is representable (`len + cnt ≤ isize::MAX`, below
which `Vec::reserve` cannot hit its capacity-overflow panic), making
`remaining_mut` equal to `usize::MAX - (len + cnt)`; when the reserve path
is taken and that bound is exceeded, `reserve(cnt)` panics with the vector —
and hence `remaining_mut` — unchanged. -/
theorem vec_remaining_mut_formula :
    ∀ v : VecBuf, vecOps.remaining_mut v = USIZE_MAX - v.len ∧
      vecOps.remaining_mut (vecOps.bytes_mut v).2 = vecOps.remaining_mut v ∧
      (∀ cnt : Nat, v.len + cnt ≤ ISIZE_MAX →
        ∃ v2, vecOps.advance_mut v cnt = Except.ok v2 ∧ v2.len = v.len + cnt ∧
          vecOps.remaining_mut v2 = USIZE_MAX - (v.len + cnt)) ∧
      (∀ cnt : Nat, v.store.length - v.len < cnt → ISIZE_MAX < v.len + cnt →
        vecOps.advance_mut v cnt = Except.error v) := by
  intro v
  refine ⟨rfl, ?_, ?_, ?_⟩
  · by_cases hcap : v.store.length = v.len <;> simp [vecOps, hcap]
  · intro cnt hcnt
    by_cases hsl : v.store.length - v.len < cnt
    · exact ⟨⟨v.store ++ List.replicate (v.len + cnt - v.store.length) 0,
        v.len + cnt⟩, by simp [vecOps, hsl, hcnt], rfl, rfl⟩
    · exact ⟨⟨v.store, v.len + cnt⟩, vec_advance_eq v cnt (by omega), rfl, rfl⟩
  · intro cnt hsl hover
    have h2 : ¬ (v.len + cnt ≤ ISIZE_MAX) := by omega
    simp [vecOps, hsl, h2]

/-- Witness for C9: advancing by 1 within the representable range succeeds
with `len` incremented; advancing an empty vector past `isize::MAX` panics
with the vector unchanged. -/
theorem vec_remaining_mut_formula_witness :
    (∃ v2, vecOps.advance_mut ⟨[0, 0], 1⟩ 1 = Except.ok v2 ∧ v2.len = 1 + 1 ∧
      vecOps.remaining_mut v2 = USIZE_MAX - (1 + 1)) ∧
    vecOps.advance_mut ⟨[], 0⟩ (ISIZE_MAX + 1) = Except.error ⟨[], 0⟩ :=
  ⟨(vec_remaining_mut_formula ⟨[0, 0], 1⟩).2.2.1 1 (by decide),
   (vec_remaining_mut_formula ⟨[], 0⟩).2.2.2 (ISIZE_MAX + 1) (by decide) (by decide)⟩

/-- C10: for every buffer, every value and every `nbytes > 8`, all four
variable-width encoders panic before reaching `put_slice` (index underflow /
slice-bounds violation), leaving the buffer in exactly its original state. -/
theorem put_uint_oob_nbytes_panics {σ : Type} (ops : BufMutOps σ) (s : σ)
    (n : Nat) (m : Int) (nbytes : Nat) (h : 8 < nbytes) :
    put_uint ops s n nbytes = Except.error s ∧
    put_uint_le ops s n nbytes = Except.error s ∧
    put_int ops s m nbytes = Except.error s ∧
    put_int_le ops s m nbytes = Except.error s := by
  have h8 : ¬ nbytes ≤ 8 := by omega
  refine ⟨?_, ?_, ?_, ?_⟩ <;>
    simp [put_uint, put_uint_le, put_int, put_int_le, h8]

/-- Witness for C10 at `nbytes = 9` on a 1-byte fixed view. -/
theorem put_uint_oob_nbytes_panics_witness :
    put_uint fixedOps ⟨[0], 0⟩ 0 9 = Except.error ⟨[0], 0⟩ ∧
    put_uint_le fixedOps ⟨[0], 0⟩ 0 9 = Except.error ⟨[0], 0⟩ ∧
    put_int fixedOps ⟨[0], 0⟩ 0 9 = Except.error ⟨[0], 0⟩ ∧
    put_int_le fixedOps ⟨[0], 0⟩ 0 9 = Except.error ⟨[0], 0⟩ :=
  put_uint_oob_nbytes_panics fixedOps ⟨[0], 0⟩ 0 0 9 (by decide)
